import Mathlib

/-!
Formal model of the `eseries` library (`src/eseries/eseries.py` together
with `src/eseries/compatability.py`), embedded over exact rational
arithmetic.  Python floats are modelled by `ℚ`; `math.floor(math.log10 v)`
is modelled by the exact `floor_log10` below, generators are modelled by
explicit state passing indexed by the number of `next` calls, and fallible
functions return `Except`/`Option`.
-/

/-- `10 ^ e` as a rational, for an integer exponent `e`. -/
def pow10 (e : ℤ) : ℚ := (10 : ℚ) ^ e

theorem pow10_pos (e : ℤ) : 0 < pow10 e := zpow_pos (by norm_num) e

theorem pow10_ne_zero (e : ℤ) : pow10 e ≠ 0 := ne_of_gt (pow10_pos e)

theorem pow10_add (a b : ℤ) : pow10 (a + b) = pow10 a * pow10 b :=
  zpow_add₀ (by norm_num : (10:ℚ) ≠ 0) a b

theorem pow10_lt_pow10 {a b : ℤ} (h : a < b) : pow10 a < pow10 b :=
  zpow_lt_zpow_right₀ (by norm_num : (1:ℚ) < 10) h

theorem pow10_le_pow10 {a b : ℤ} (h : a ≤ b) : pow10 a ≤ pow10 b :=
  zpow_le_zpow_right₀ (by norm_num : (1:ℚ) ≤ 10) h

theorem pow10_succ (e : ℤ) : pow10 (e + 1) = pow10 e * 10 := by
  rw [pow10_add]; norm_num [pow10]

theorem pow10_natCast (k : ℕ) : pow10 (k : ℤ) = ((10 ^ k : ℕ) : ℚ) := by
  rw [pow10, zpow_natCast]; push_cast; ring

/-- Fuel-based base-10 logarithm on naturals: for `1 ≤ n ≤ fuel` it returns
the largest `k` with `10 ^ k ≤ n`. -/
def nat_log10 : ℕ → ℕ → ℕ
  | 0, _ => 0
  | fuel + 1, n => if n < 10 then 0 else nat_log10 fuel (n / 10) + 1

theorem nat_log10_spec : ∀ fuel n : ℕ, 1 ≤ n → n ≤ fuel →
    10 ^ nat_log10 fuel n ≤ n ∧ n < 10 ^ (nat_log10 fuel n + 1) := by
  intro fuel
  induction fuel with
  | zero => intro n h1 h2; omega
  | succ f ih =>
    intro n h1 h2
    by_cases hn : n < 10
    · simp only [nat_log10, hn, if_true]
      constructor
      · simpa using h1
      · simpa using hn
    · push_neg at hn
      have hm1 : 1 ≤ n / 10 := (Nat.one_le_div_iff (by norm_num)).mpr hn
      have hm2 : n / 10 ≤ f := by
        have := Nat.div_lt_self (show 0 < n by omega) (show 1 < 10 by norm_num)
        omega
      obtain ⟨ha, hb⟩ := ih (n / 10) hm1 hm2
      have heq : nat_log10 (f + 1) n = nat_log10 f (n / 10) + 1 := by
        simp [nat_log10, hn]
      rw [heq]
      constructor
      · calc 10 ^ (nat_log10 f (n / 10) + 1) = 10 ^ nat_log10 f (n / 10) * 10 := by ring
          _ ≤ n / 10 * 10 := Nat.mul_le_mul_right 10 ha
          _ ≤ n := Nat.div_mul_le_self n 10
      · have hmod := Nat.div_add_mod n 10
        have hmlt : n % 10 < 10 := Nat.mod_lt n (by norm_num)
        have hstep : n < (n / 10 + 1) * 10 := by omega
        calc n < (n / 10 + 1) * 10 := hstep
          _ ≤ 10 ^ (nat_log10 f (n / 10) + 1) * 10 := by
              exact Nat.mul_le_mul_right 10 (by omega)
          _ = 10 ^ (nat_log10 f (n / 10) + 1 + 1) := by ring

/-- Fuel-based base-10 ceiling logarithm on naturals: for `2 ≤ n ≤ fuel` it
returns the smallest `c` with `n ≤ 10 ^ c`. -/
def nat_clog10 : ℕ → ℕ → ℕ
  | 0, _ => 0
  | fuel + 1, n => if n ≤ 1 then 0 else nat_clog10 fuel ((n + 9) / 10) + 1

theorem nat_clog10_one (fuel : ℕ) : nat_clog10 fuel 1 = 0 := by
  cases fuel <;> simp [nat_clog10]

theorem nat_clog10_spec : ∀ fuel n : ℕ, 2 ≤ n → n ≤ fuel →
    ∃ d : ℕ, nat_clog10 fuel n = d + 1 ∧ n ≤ 10 ^ (d + 1) ∧ 10 ^ d < n := by
  intro fuel
  induction fuel with
  | zero => intro n h1 h2; omega
  | succ f ih =>
    intro n h1 h2
    have hn1 : ¬ n ≤ 1 := by omega
    have heq : nat_clog10 (f + 1) n = nat_clog10 f ((n + 9) / 10) + 1 := by
      simp [nat_clog10, hn1]
    by_cases hsmall : n ≤ 10
    · have hm : (n + 9) / 10 = 1 := by omega
      refine ⟨0, ?_, by simpa using hsmall, by simpa using h1⟩
      rw [heq, hm, nat_clog10_one]
    · push_neg at hsmall
      have hm2 : 2 ≤ (n + 9) / 10 := by omega
      have hmf : (n + 9) / 10 ≤ f := by
        have : (n + 9) / 10 < n := (Nat.div_lt_iff_lt_mul (by norm_num)).mpr (by omega)
        omega
      obtain ⟨d, hd, hdu, hdl⟩ := ih ((n + 9) / 10) hm2 hmf
      refine ⟨d + 1, by rw [heq, hd], ?_, ?_⟩
      · have h10m : n ≤ 10 * ((n + 9) / 10) := by omega
        calc n ≤ 10 * ((n + 9) / 10) := h10m
          _ ≤ 10 * 10 ^ (d + 1) := by exact Nat.mul_le_mul_left 10 hdu
          _ = 10 ^ (d + 1 + 1) := by ring
      · have h10m : 10 * ((n + 9) / 10) ≤ n + 9 := by omega
        have : 10 ^ d + 1 ≤ (n + 9) / 10 := hdl
        calc 10 ^ (d + 1) = 10 * 10 ^ d := by ring
          _ ≤ 10 * ((n + 9) / 10) - 10 := by omega
          _ < n := by omega

/-- Exact `floor(log10 value)` for a positive rational, modelling the
`floor(log10(value))` computation used by `iterate_up`/`iterate_down`. -/
def floor_log10 (v : ℚ) : ℤ :=
  if 1 ≤ v then (nat_log10 ⌊v⌋.toNat ⌊v⌋.toNat : ℤ)
  else -(nat_clog10 ⌈1 / v⌉.toNat ⌈1 / v⌉.toNat : ℤ)

theorem floor_log10_spec (v : ℚ) (hv : 0 < v) :
    pow10 (floor_log10 v) ≤ v ∧ v < pow10 (floor_log10 v + 1) := by
  by_cases h1 : 1 ≤ v
  · have hfl1 : (1 : ℤ) ≤ ⌊v⌋ := Int.le_floor.mpr (by exact_mod_cast h1)
    set n : ℕ := ⌊v⌋.toNat with hn
    have hncast : (n : ℤ) = ⌊v⌋ := Int.toNat_of_nonneg (by omega)
    have hn1 : 1 ≤ n := by omega
    obtain ⟨hlow, hhigh⟩ := nat_log10_spec n n hn1 le_rfl
    have hflog : floor_log10 v = (nat_log10 n n : ℤ) := by
      simp [floor_log10, h1, hn]
    rw [hflog]
    constructor
    · rw [pow10_natCast]
      calc ((10 ^ nat_log10 n n : ℕ) : ℚ) ≤ (n : ℚ) := by exact_mod_cast hlow
        _ = ((⌊v⌋ : ℤ) : ℚ) := by exact_mod_cast hncast
        _ ≤ v := Int.floor_le v
    · have : ((nat_log10 n n : ℤ) + 1) = ((nat_log10 n n + 1 : ℕ) : ℤ) := by push_cast; ring
      rw [this, pow10_natCast]
      have hnv : v < (n : ℚ) + 1 := by
        have := Int.lt_floor_add_one v
        have hc : ((⌊v⌋ : ℤ) : ℚ) = (n : ℚ) := by exact_mod_cast hncast.symm
        linarith [this, hc.le]
      calc v < (n : ℚ) + 1 := hnv
        _ ≤ ((10 ^ (nat_log10 n n + 1) : ℕ) : ℚ) := by exact_mod_cast hhigh
  · push_neg at h1
    have hw : 1 < 1 / v := by
      rw [lt_div_iff hv]; linarith
    have hwpos : 0 < 1 / v := by positivity
    have hceil2 : (2 : ℤ) ≤ ⌈1 / v⌉ := by
      have := Int.lt_ceil.mpr (show ((1:ℤ) : ℚ) < 1 / v by exact_mod_cast hw)
      omega
    set N : ℕ := ⌈1 / v⌉.toNat with hN
    have hNcast : (N : ℤ) = ⌈1 / v⌉ := Int.toNat_of_nonneg (by omega)
    have hN2 : 2 ≤ N := by omega
    obtain ⟨d, hd, hdu, hdl⟩ := nat_clog10_spec N N hN2 le_rfl
    have hflog : floor_log10 v = -((d : ℤ) + 1) := by
      have : floor_log10 v = -(nat_clog10 N N : ℤ) := by
        simp [floor_log10, not_le.mpr h1, hN]
      rw [this, hd]; push_cast; ring
    have hwN : 1 / v ≤ (N : ℚ) := by
      calc 1 / v ≤ ((⌈1 / v⌉ : ℤ) : ℚ) := Int.le_ceil (1 / v)
        _ = (N : ℚ) := by exact_mod_cast hNcast.symm
    have hNw : ((10 ^ d : ℕ) : ℚ) < 1 / v := by
      have hceil : ((⌈1 / v⌉ : ℤ) : ℚ) < 1 / v + 1 := Int.ceil_lt_add_one (1 / v)
      have hNc : ((N : ℕ) : ℚ) = ((⌈1 / v⌉ : ℤ) : ℚ) := by exact_mod_cast hNcast
      have hdlq : ((10 ^ d : ℕ) : ℚ) + 1 ≤ (N : ℚ) := by exact_mod_cast hdl
      linarith
    rw [hflog]
    constructor
    · have hpow : pow10 (-((d : ℤ) + 1)) = (((10 ^ (d + 1) : ℕ) : ℚ))⁻¹ := by
        rw [pow10, zpow_neg]
        congr 1
        have : ((d : ℤ) + 1) = ((d + 1 : ℕ) : ℤ) := by push_cast; ring
        rw [this, ← pow10_natCast, pow10]
      rw [hpow]
      have hup : 1 / v ≤ ((10 ^ (d + 1) : ℕ) : ℚ) := by
        calc 1 / v ≤ (N : ℚ) := hwN
          _ ≤ ((10 ^ (d + 1) : ℕ) : ℚ) := by exact_mod_cast hdu
      have hppos : (0 : ℚ) < ((10 ^ (d + 1) : ℕ) : ℚ) := by positivity
      rw [← one_div, div_le_iff hppos]
      have h1le : 1 ≤ ((10 ^ (d + 1) : ℕ) : ℚ) * v := (div_le_iff hv).mp hup
      linarith [mul_comm v ((10 ^ (d + 1) : ℕ) : ℚ)]
    · have hpow : pow10 (-((d : ℤ) + 1) + 1) = (((10 ^ d : ℕ) : ℚ))⁻¹ := by
        have : -((d : ℤ) + 1) + 1 = -(d : ℤ) := by ring
        rw [this, pow10, zpow_neg]
        congr 1
        rw [← pow10_natCast, pow10]
      rw [hpow]
      have hppos : (0 : ℚ) < ((10 ^ d : ℕ) : ℚ) := by positivity
      rw [← one_div, lt_div_iff hppos]
      have hXv : ((10 ^ d : ℕ) : ℚ) * v < 1 := (lt_div_iff hv).mp hNw
      linarith [mul_comm v ((10 ^ d : ℕ) : ℚ)]

/-- `bisect.bisect_left` on an ascending table of naturals with a rational
key: the number of entries strictly below the key. -/
def bisect_left (l : List ℕ) (x : ℚ) : ℕ :=
  (List.takeWhile (fun m : ℕ => decide ((m : ℚ) < x)) l).length

/-- `bisect.bisect_right`: the number of entries at most the key. -/
def bisect_right (l : List ℕ) (x : ℚ) : ℕ :=
  (List.takeWhile (fun m : ℕ => decide ((m : ℚ) ≤ x)) l).length

/-- One preferred-number series: the class `ESeries` of `eseries.py`
(name, tolerance, base exponent, per-decade mantissa table). -/
structure ESeries where
  name : String
  tolerance : ℚ
  base_exponent : ℤ
  base_values : List ℕ

def E3 : ESeries := ⟨"E3", 4/10, 1, [10, 22, 47]⟩

def E6 : ESeries := ⟨"E6", 2/10, 1, [10, 15, 22, 33, 47, 68]⟩

def E12 : ESeries := ⟨"E12", 1/10, 1, [10, 12, 15, 18, 22, 27, 33, 39, 47, 56, 68, 82]⟩

def E24 : ESeries := ⟨"E24", 5/100, 1,
  [10, 11, 12, 13, 15, 16, 18, 20, 22, 24, 27, 30, 33, 36, 39, 43, 47, 51, 56, 62, 68, 75, 82, 91]⟩

def E48 : ESeries := ⟨"E48", 2/100, 2,
  [100, 105, 110, 115, 121, 127, 133, 140, 147, 154, 162, 169, 178, 187, 196, 205, 215,
   226, 237, 249, 261, 274, 287, 301, 316, 332, 348, 365, 383, 402, 422, 442, 464, 487,
   511, 536, 562, 590, 619, 649, 681, 715, 750, 787, 825, 866, 909, 953]⟩

def E96 : ESeries := ⟨"E96", 1/100, 2,
  [100, 102, 105, 107, 110, 113, 115, 118, 121, 124, 127, 130, 133, 137, 140, 143, 147,
   150, 154, 158, 162, 165, 169, 174, 178, 182, 187, 191, 196, 200, 205, 210, 215, 221,
   226, 232, 237, 243, 249, 255, 261, 267, 274, 280, 287, 294, 301, 309, 316, 324, 332,
   340, 348, 357, 365, 374, 383, 392, 402, 412, 422, 432, 442, 453, 464, 475, 487, 499,
   511, 523, 536, 549, 562, 576, 590, 604, 619, 634, 649, 665, 681, 698, 715, 732, 750,
   768, 787, 806, 825, 845, 866, 887, 909, 931, 953, 976]⟩

def E192 : ESeries := ⟨"E192", 5/1000, 2,
  [100, 101, 102, 104, 105, 106, 107, 109, 110, 111, 113, 114, 115, 117, 118, 120, 121,
   123, 124, 126, 127, 129, 130, 132, 133, 135, 137, 138, 140, 142, 143, 145, 147, 149,
   150, 152, 154, 156, 158, 160, 162, 164, 165, 167, 169, 172, 174, 176, 178, 180, 182,
   184, 187, 189, 191, 193, 196, 198, 200, 203, 205, 208, 210, 213, 215, 218, 221, 223,
   226, 229, 232, 234, 237, 240, 243, 246, 249, 252, 255, 258, 261, 264, 267, 271, 274,
   277, 280, 284, 287, 291, 294, 298, 301, 305, 309, 312, 316, 320, 324, 328, 332, 336,
   340, 344, 348, 352, 357, 361, 365, 370, 374, 379, 383, 388, 392, 397, 402, 407, 412,
   417, 422, 427, 432, 437, 442, 448, 453, 459, 464, 470, 475, 481, 487, 493, 499, 505,
   511, 517, 523, 530, 536, 542, 549, 556, 562, 569, 576, 583, 590, 597, 604, 612, 619,
   626, 634, 642, 649, 657, 665, 673, 681, 690, 698, 706, 715, 723, 732, 741, 750, 759,
   768, 777, 787, 796, 806, 816, 825, 835, 845, 856, 866, 876, 887, 898, 909, 920, 931,
   942, 953, 965, 976, 988]⟩

/-- The registry `ESeries._instances` populated at import time. -/
def ESeries.instances : List ESeries := [E3, E6, E12, E24, E48, E96, E192]

namespace ESeries

/-- The yield expression shared by `iterate_up` and `iterate_down`:
`base_values[index]` scaled by `10 ** exponent_offset`, dividing instead of
multiplying when the offset is negative, exactly as the source does. -/
def emit (s : ESeries) (index : ℕ) (exponent_offset : ℤ) : ℚ :=
  if exponent_offset < 0 then
    (s.base_values.getD index 0 : ℚ) / ((10 ^ (-exponent_offset).toNat : ℕ) : ℚ)
  else
    (s.base_values.getD index 0 : ℚ) * ((10 ^ exponent_offset.toNat : ℕ) : ℚ)

/-- The wrap-around normalisation at the top of `iterate_up`'s loop body. -/
def upNorm (s : ESeries) : ℕ × ℤ → ℕ × ℤ
  | (index, expo) => if s.base_values.length ≤ index then (0, expo + 1) else (index, expo)

/-- The generator state of `iterate_up` right after the two initial
assignments: `index = bisect_left(...)`, `exponent_offset = floor(log10 v) - base_exponent`. -/
def upStart (s : ESeries) (value : ℚ) : ℕ × ℤ :=
  (bisect_left s.base_values (value / pow10 (floor_log10 value - s.base_exponent)),
   floor_log10 value - s.base_exponent)

/-- The generator state of `iterate_up` before its `n`-th loop iteration. -/
def upState (s : ESeries) (value : ℚ) : ℕ → ℕ × ℤ
  | 0 => s.upStart value
  | n + 1 => ((s.upNorm (s.upState value n)).1 + 1, (s.upNorm (s.upState value n)).2)

/-- `ESeries.iterate_up`: the `n`-th value yielded by the generator. -/
def iterate_up (s : ESeries) (value : ℚ) (n : ℕ) : ℚ :=
  s.emit (s.upNorm (s.upState value n)).1 (s.upNorm (s.upState value n)).2

/-- The wrap-around normalisation at the top of `iterate_down`'s loop body
(`index` may be `-1` here, hence the integer index). -/
def downNorm (s : ESeries) : ℤ × ℤ → ℤ × ℤ
  | (index, expo) =>
    if index < 0 then ((s.base_values.length : ℤ) - 1, expo - 1) else (index, expo)

/-- The generator state of `iterate_down` right after its initial
assignments: `index = bisect_right(...) - 1`. -/
def downStart (s : ESeries) (value : ℚ) : ℤ × ℤ :=
  ((bisect_right s.base_values (value / pow10 (floor_log10 value - s.base_exponent)) : ℤ) - 1,
   floor_log10 value - s.base_exponent)

/-- The generator state of `iterate_down` before its `n`-th loop iteration. -/
def downState (s : ESeries) (value : ℚ) : ℕ → ℤ × ℤ
  | 0 => s.downStart value
  | n + 1 => ((s.downNorm (s.downState value n)).1 - 1, (s.downNorm (s.downState value n)).2)

/-- `ESeries.iterate_down`: the `n`-th value yielded by the generator. -/
def iterate_down (s : ESeries) (value : ℚ) (n : ℕ) : ℚ :=
  s.emit (s.downNorm (s.downState value n)).1.toNat (s.downNorm (s.downState value n)).2

/-- Generator steps after which `iterate_up start` is provably past any
`stop`; stands in for the unbounded `while True` loop of the source, whose
`range` consumer stops by itself (`rangeFuel_overshoots` below). -/
def rangeFuel (s : ESeries) (start stop : ℚ) : ℕ :=
  s.base_values.length * ((floor_log10 stop - floor_log10 start).toNat + 2)

/-- `ESeries.range`: walk `iterate_up(start)` and cut at the first value
violating the stop condition (`value > stop` when `include_stop`, else
`value >= stop`). -/
def range (s : ESeries) (start stop : ℚ) (include_stop : Bool) : List ℚ :=
  ((List.range (s.rangeFuel start stop)).map fun n => s.iterate_up start n).takeWhile
    fun v => if include_stop then decide (v ≤ stop) else decide (v < stop)

/-- `ESeries.find_greater_than_or_equal`: `next(self.iterate_up(value))`. -/
def find_greater_than_or_equal (s : ESeries) (value : ℚ) : ℚ := s.iterate_up value 0

/-- `ESeries.find_less_than_or_equal`: `next(self.iterate_down(value))`. -/
def find_less_than_or_equal (s : ESeries) (value : ℚ) : ℚ := s.iterate_down value 0

end ESeries

/-- Bounded scan modelling `next(v for v in gen if v != value)`: first
generator element different from `value`, scanning at most `fuel` elements. -/
def scanNe (f : ℕ → ℚ) (value : ℚ) : ℕ → ℕ → Option ℚ
  | _, 0 => none
  | i, fuel + 1 => if f i = value then scanNe f value (i + 1) fuel else some (f i)

namespace ESeries

/-- `ESeries.find_greater_than`: first ascending value `!= value`. -/
def find_greater_than (s : ESeries) (value : ℚ) : Option ℚ :=
  scanNe (s.iterate_up value) value 0 (s.base_values.length + 1)

/-- `ESeries.find_less_than`: first descending value `!= value`. -/
def find_less_than (s : ESeries) (value : ℚ) : Option ℚ :=
  scanNe (s.iterate_down value) value 0 (s.base_values.length + 1)

/-- `ESeries.find_nearest`: `v1 if abs(v1/value - 1) < abs(v2/value - 1) else v2`. -/
def find_nearest (s : ESeries) (value : ℚ) : ℚ :=
  if |s.find_greater_than_or_equal value / value - 1| <
      |s.find_less_than_or_equal value / value - 1| then
    s.find_greater_than_or_equal value
  else
    s.find_less_than_or_equal value

end ESeries

/-- A `__getitem__` key: a plain number, or a step-free slice `start:stop`. -/
inductive Key where
  | num (x : ℚ)
  | slice (start stop : ℚ)

namespace ESeries

/-- `ESeries.__getitem__` for a number or a step-free slice (the slice
branch calls `self.range(key.start, key.stop)`, so `include_stop` defaults
to `False`). -/
def getitem (s : ESeries) : Key → ℚ ⊕ List ℚ
  | Key.slice start stop => Sum.inr (s.range start stop false)
  | Key.num x => Sum.inl (s.find_nearest x)

end ESeries

/-- `compatability.find_nearest_few`: count validation, then one or two
`next` calls on `iterate_down(value)` and, for three results, `next` calls
on `iterate_up(value)` skipping a value equal to `nearest`. -/
def find_nearest_few (s : ESeries) (value : ℚ) (num : ℤ) : Except String (List ℚ) :=
  if num = 1 ∨ num = 2 ∨ num = 3 then
    if num = 1 then Except.ok [s.iterate_down value 0]
    else if num = 2 then Except.ok [s.iterate_down value 1, s.iterate_down value 0]
    else Except.ok [s.iterate_down value 1, s.iterate_down value 0,
      if s.iterate_up value 0 = s.iterate_down value 0 then s.iterate_up value 1
      else s.iterate_up value 0]
  else Except.error "num is not 1, 2 or 3"

/-- `compatability._MINIMUM_E_VALUE = 1e-200`. -/
def MINIMUM_E_VALUE : ℚ := 1 / 10 ^ 200

/-- `compatability.erange`: bound validation, then
`series_key.range(start, stop, include_stop=True)`.  The two `math.isinf`
guards of the source have no counterpart over `ℚ`. -/
def erange (s : ESeries) (start stop : ℚ) : Except String (List ℚ) :=
  if start < MINIMUM_E_VALUE then Except.error "start value too small"
  else if stop < MINIMUM_E_VALUE then Except.error "stop value too small"
  else if ¬ start ≤ stop then Except.error "start must be less than stop"
  else Except.ok (s.range start stop true)

namespace ESeries

/-- Membership in a series: some table mantissa scaled by ten to some
integer decade offset. -/
def isMember (s : ESeries) (w : ℚ) : Prop :=
  ∃ m ∈ s.base_values, ∃ e : ℤ, w = (m : ℚ) * pow10 e

/-- The table invariants the spec records for every series (§3): nonempty,
strictly ascending, one decade's worth of mantissas at `base_exponent`. -/
def valid (s : ESeries) : Prop :=
  s.base_values ≠ [] ∧ List.Pairwise (· < ·) s.base_values ∧
    ∀ m ∈ s.base_values,
      pow10 s.base_exponent ≤ (m : ℚ) ∧ (m : ℚ) < pow10 (s.base_exponent + 1)

instance (s : ESeries) : Decidable s.valid := by
  unfold valid; infer_instance

/-- Linear position valuation: position `t` denotes table entry `t mod L`
scaled by decade `t div L`.  Both generators walk consecutive positions. -/
def posVal (s : ESeries) (t : ℤ) : ℚ :=
  (s.base_values.getD (t % (s.base_values.length : ℤ)).toNat 0 : ℚ) *
    pow10 (t / (s.base_values.length : ℤ))

/-- The starting position of `iterate_up value`. -/
def upPos (s : ESeries) (value : ℚ) : ℤ :=
  (floor_log10 value - s.base_exponent) * s.base_values.length +
    bisect_left s.base_values (value / pow10 (floor_log10 value - s.base_exponent))

/-- The starting position of `iterate_down value`. -/
def downPos (s : ESeries) (value : ℚ) : ℤ :=
  (floor_log10 value - s.base_exponent) * s.base_values.length +
    bisect_right s.base_values (value / pow10 (floor_log10 value - s.base_exponent)) - 1

end ESeries

theorem takeWhile_pred_of_lt {α : Type} (p : α → Bool) :
    ∀ (l : List α) (j : ℕ) (h : j < l.length),
      j < (l.takeWhile p).length → p (l.get ⟨j, h⟩) = true := by
  intro l
  induction l with
  | nil => intro j h; simp at h
  | cons a t ih =>
    intro j h hj
    rw [List.takeWhile_cons] at hj
    by_cases hpa : p a = true
    · rw [if_pos hpa] at hj
      cases j with
      | zero => simpa using hpa
      | succ k =>
        have hk : k < t.length := by simpa using h
        have hk2 : k < (t.takeWhile p).length := by simpa using hj
        simpa using ih k hk hk2
    · rw [if_neg hpa] at hj
      simp at hj

theorem takeWhile_pred_at_end {α : Type} (p : α → Bool) :
    ∀ (l : List α) (h : (l.takeWhile p).length < l.length),
      p (l.get ⟨(l.takeWhile p).length, h⟩) = false := by
  intro l
  induction l with
  | nil => intro h; simp at h
  | cons a t ih =>
    intro h
    by_cases hpa : p a = true
    · have htw : ((a :: t).takeWhile p) = a :: t.takeWhile p := by
        rw [List.takeWhile_cons, if_pos hpa]
      have hlen : ((a :: t).takeWhile p).length = (t.takeWhile p).length + 1 := by
        rw [htw]; simp
      have ht : (t.takeWhile p).length < t.length := by
        have := h; rw [hlen] at this; simpa using this
      have : (a :: t).get ⟨(t.takeWhile p).length + 1, by simpa using ht⟩ =
          t.get ⟨(t.takeWhile p).length, ht⟩ := rfl
      simp only [hlen]
      rw [this]
      exact ih ht
    · have htw : ((a :: t).takeWhile p) = [] := by
        rw [List.takeWhile_cons, if_neg hpa]
      simp only [htw, List.length_nil]
      simpa using hpa

theorem takeWhile_length_le {α : Type} (p : α → Bool) (l : List α) :
    (l.takeWhile p).length ≤ l.length := by
  have hpre : l.takeWhile p <+: l := List.takeWhile_prefix p
  exact hpre.length_le

theorem get_mem_takeWhile {α : Type} (p : α → Bool) :
    ∀ (l : List α) (n : ℕ) (h : n < l.length),
      (∀ k (hk : k ≤ n), p (l.get ⟨k, lt_of_le_of_lt hk h⟩) = true) →
      l.get ⟨n, h⟩ ∈ l.takeWhile p := by
  intro l
  induction l with
  | nil => intro n h; simp at h
  | cons a t ih =>
    intro n h hall
    have hpa : p a = true := hall 0 (Nat.zero_le n)
    have htw : ((a :: t).takeWhile p) = a :: t.takeWhile p := by
      rw [List.takeWhile_cons, if_pos hpa]
    rw [htw]
    cases n with
    | zero => simp
    | succ k =>
      have hk : k < t.length := by simpa using h
      have hallt : ∀ j (hj : j ≤ k), p (t.get ⟨j, lt_of_le_of_lt hj hk⟩) = true := by
        intro j hj
        have := hall (j + 1) (by omega)
        simpa using this
      have hmem := ih k hk hallt
      have : (a :: t).get ⟨k + 1, h⟩ = t.get ⟨k, hk⟩ := rfl
      rw [this]
      exact List.mem_cons_of_mem a hmem

theorem mem_takeWhile_mem {α : Type} (p : α → Bool) (l : List α) (x : α)
    (h : x ∈ l.takeWhile p) : x ∈ l := by
  have hpre : l.takeWhile p <+: l := List.takeWhile_prefix p
  exact hpre.subset h

theorem pairwise_takeWhile {α : Type} {R : α → α → Prop} (p : α → Bool) (l : List α)
    (h : List.Pairwise R l) : List.Pairwise R (l.takeWhile p) := by
  have hpre : l.takeWhile p <+: l := List.takeWhile_prefix p
  exact List.Pairwise.sublist hpre.sublist h

theorem bisect_left_le_length (l : List ℕ) (x : ℚ) : bisect_left l x ≤ l.length := by
  unfold bisect_left
  exact takeWhile_length_le _ l

theorem bisect_right_le_length (l : List ℕ) (x : ℚ) : bisect_right l x ≤ l.length := by
  unfold bisect_right
  exact takeWhile_length_le _ l

theorem bisect_left_lt {l : List ℕ} {x : ℚ} {j : ℕ} (h : j < l.length)
    (hj : j < bisect_left l x) : (l.get ⟨j, h⟩ : ℚ) < x := by
  unfold bisect_left at hj
  have := takeWhile_pred_of_lt _ l j h hj
  simpa using this

theorem bisect_left_ge (l : List ℕ) (x : ℚ) (h : bisect_left l x < l.length) :
    x ≤ (l.get ⟨bisect_left l x, h⟩ : ℚ) := by
  unfold bisect_left at h ⊢
  have := takeWhile_pred_at_end _ l h
  simpa using this

theorem bisect_right_le {l : List ℕ} {x : ℚ} {j : ℕ} (h : j < l.length)
    (hj : j < bisect_right l x) : (l.get ⟨j, h⟩ : ℚ) ≤ x := by
  unfold bisect_right at hj
  have := takeWhile_pred_of_lt _ l j h hj
  simpa using this

theorem bisect_right_gt (l : List ℕ) (x : ℚ) (h : bisect_right l x < l.length) :
    x < (l.get ⟨bisect_right l x, h⟩ : ℚ) := by
  unfold bisect_right at h ⊢
  have := takeWhile_pred_at_end _ l h
  simpa using this

theorem pos_decompose (L : ℤ) (hL : 0 < L) (e i : ℤ) (h0 : 0 ≤ i) (hi : i < L) :
    (e * L + i) / L = e ∧ (e * L + i) % L = i := by
  constructor
  · rw [add_comm, Int.add_mul_ediv_right _ _ (ne_of_gt hL), Int.ediv_eq_zero_of_lt h0 hi,
      zero_add]
  · rw [add_comm, Int.add_mul_emod_self, Int.emod_eq_of_lt h0 hi]

namespace ESeries

theorem valid.ne_nil {s : ESeries} (hs : s.valid) : s.base_values ≠ [] := hs.1

theorem valid.length_pos {s : ESeries} (hs : s.valid) : 0 < s.base_values.length :=
  List.length_pos.mpr hs.1

theorem valid.sorted {s : ESeries} (hs : s.valid) :
    List.Pairwise (· < ·) s.base_values := hs.2.1

theorem valid.mantissa_lb {s : ESeries} (hs : s.valid) {m : ℕ} (hm : m ∈ s.base_values) :
    pow10 s.base_exponent ≤ (m : ℚ) := (hs.2.2 m hm).1

theorem valid.mantissa_ub {s : ESeries} (hs : s.valid) {m : ℕ} (hm : m ∈ s.base_values) :
    (m : ℚ) < pow10 (s.base_exponent + 1) := (hs.2.2 m hm).2

theorem valid.get_lt_get {s : ESeries} (hs : s.valid) {i j : ℕ}
    (hi : i < s.base_values.length) (hj : j < s.base_values.length) (hij : i < j) :
    s.base_values.get ⟨i, hi⟩ < s.base_values.get ⟨j, hj⟩ :=
  List.pairwise_iff_get.mp hs.sorted ⟨i, hi⟩ ⟨j, hj⟩ hij

/-- `emit` is exactly "table entry times `pow10 offset`". -/
theorem emit_eq (s : ESeries) (i : ℕ) (e : ℤ) :
    s.emit i e = (s.base_values.getD i 0 : ℚ) * pow10 e := by
  unfold emit
  by_cases he : e < 0
  · rw [if_pos he]
    have hpe : pow10 e = (((10 ^ (-e).toNat : ℕ) : ℚ))⁻¹ := by
      rw [← pow10_natCast, pow10, pow10, ← zpow_neg]
      congr 1
      omega
    rw [hpe, div_eq_mul_inv]
  · rw [if_neg he]
    have hpe : pow10 e = ((10 ^ e.toNat : ℕ) : ℚ) := by
      rw [← pow10_natCast]
      congr 1
      omega
    rw [hpe]

/-- Evaluate `posVal` at an explicitly decomposed position. -/
theorem posVal_decomposed (s : ESeries) (hL : 0 < s.base_values.length) (e : ℤ) (i : ℕ)
    (hi : i < s.base_values.length) :
    s.posVal (e * (s.base_values.length : ℤ) + (i : ℤ)) =
      (s.base_values.getD i 0 : ℚ) * pow10 e := by
  obtain ⟨hdiv, hmod⟩ := pos_decompose (s.base_values.length : ℤ)
    (by exact_mod_cast hL) e (i : ℤ) (by omega) (by exact_mod_cast hi)
  unfold posVal
  rw [hdiv, hmod]
  simp

theorem getD_eq_get (l : List ℕ) {i : ℕ} (h : i < l.length) :
    l.getD i 0 = l.get ⟨i, h⟩ := List.getD_eq_get l 0 h

/-- Every position valuation is a member of the series. -/
theorem posVal_isMember (s : ESeries) (hs : s.valid) (t : ℤ) : s.isMember (s.posVal t) := by
  have hL : 0 < s.base_values.length := hs.length_pos
  have hLz : (0 : ℤ) < (s.base_values.length : ℤ) := by exact_mod_cast hL
  have hmodlt : t % (s.base_values.length : ℤ) < (s.base_values.length : ℤ) :=
    Int.emod_lt_of_pos t hLz
  have hmod0 : 0 ≤ t % (s.base_values.length : ℤ) :=
    Int.emod_nonneg t (ne_of_gt hLz)
  have hidx : (t % (s.base_values.length : ℤ)).toNat < s.base_values.length := by omega
  refine ⟨s.base_values.get ⟨(t % (s.base_values.length : ℤ)).toNat, hidx⟩,
    List.get_mem _ _ _, t / (s.base_values.length : ℤ), ?_⟩
  unfold posVal
  rw [getD_eq_get s.base_values hidx]

/-- Every member is some position valuation. -/
theorem isMember_posVal (s : ESeries) (hs : s.valid) {w : ℚ} (hw : s.isMember w) :
    ∃ t : ℤ, s.posVal t = w := by
  obtain ⟨m, hm, e, hwe⟩ := hw
  obtain ⟨⟨i, hi⟩, hget⟩ := List.mem_iff_get.mp hm
  refine ⟨e * (s.base_values.length : ℤ) + (i : ℤ), ?_⟩
  rw [posVal_decomposed s hs.length_pos e i hi, getD_eq_get s.base_values hi, hget, hwe]

/-- Position valuations are positive. -/
theorem posVal_pos (s : ESeries) (hs : s.valid) (t : ℤ) : 0 < s.posVal t := by
  have hL : 0 < s.base_values.length := hs.length_pos
  have hLz : (0 : ℤ) < (s.base_values.length : ℤ) := by exact_mod_cast hL
  have hmod0 : 0 ≤ t % (s.base_values.length : ℤ) := Int.emod_nonneg t (ne_of_gt hLz)
  have hmodlt : t % (s.base_values.length : ℤ) < (s.base_values.length : ℤ) :=
    Int.emod_lt_of_pos t hLz
  have hidx : (t % (s.base_values.length : ℤ)).toNat < s.base_values.length := by omega
  unfold posVal
  rw [getD_eq_get s.base_values hidx]
  have hmem := List.get_mem s.base_values _ hidx
  have hlb := hs.mantissa_lb hmem
  have := pow10_pos s.base_exponent
  have := pow10_pos (t / (s.base_values.length : ℤ))
  have : (0:ℚ) < (s.base_values.get ⟨(t % (s.base_values.length : ℤ)).toNat, hidx⟩ : ℚ) := by
    calc (0:ℚ) < pow10 s.base_exponent := pow10_pos _
      _ ≤ _ := hlb
  positivity

end ESeries

namespace ESeries

/-- Consecutive positions valuate to strictly increasing values: inside a
decade because the table ascends strictly, across the wrap because the last
mantissa is below ten times the first one. -/
theorem posVal_lt_succ (s : ESeries) (hs : s.valid) (t : ℤ) :
    s.posVal t < s.posVal (t + 1) := by
  have hL : 0 < s.base_values.length := hs.length_pos
  have hLz : (0 : ℤ) < (s.base_values.length : ℤ) := by exact_mod_cast hL
  have hr0 : 0 ≤ t % (s.base_values.length : ℤ) := Int.emod_nonneg t (ne_of_gt hLz)
  have hrL : t % (s.base_values.length : ℤ) < (s.base_values.length : ℤ) :=
    Int.emod_lt_of_pos t hLz
  obtain ⟨e, i, hi, ht⟩ : ∃ (e : ℤ) (i : ℕ), i < s.base_values.length ∧
      t = e * (s.base_values.length : ℤ) + (i : ℤ) := by
    refine ⟨t / (s.base_values.length : ℤ), (t % (s.base_values.length : ℤ)).toNat,
      by omega, ?_⟩
    have hde := Int.ediv_add_emod t (s.base_values.length : ℤ)
    have hc : ((t % (s.base_values.length : ℤ)).toNat : ℤ) =
        t % (s.base_values.length : ℤ) := Int.toNat_of_nonneg hr0
    rw [hc]
    linarith [mul_comm (s.base_values.length : ℤ) (t / (s.base_values.length : ℤ))]
  by_cases hcase : i + 1 < s.base_values.length
  · have ht1 : t + 1 = e * (s.base_values.length : ℤ) + ((i + 1 : ℕ) : ℤ) := by
      rw [ht]; push_cast; ring
    rw [ht1, ht, posVal_decomposed s hL e i hi, posVal_decomposed s hL e (i + 1) hcase,
      getD_eq_get s.base_values hi, getD_eq_get s.base_values hcase]
    have hlt := hs.get_lt_get hi hcase (Nat.lt_succ_self i)
    have hltq : (s.base_values.get ⟨i, hi⟩ : ℚ) < (s.base_values.get ⟨i + 1, hcase⟩ : ℚ) := by
      exact_mod_cast hlt
    exact mul_lt_mul_of_pos_right hltq (pow10_pos e)
  · have hieq : i + 1 = s.base_values.length := by omega
    have hlen : ((s.base_values.length : ℕ) : ℤ) = (i : ℤ) + 1 := by exact_mod_cast hieq.symm
    have ht1 : t + 1 = (e + 1) * (s.base_values.length : ℤ) + ((0 : ℕ) : ℤ) := by
      rw [ht, hlen]; push_cast; ring
    rw [ht1, ht, posVal_decomposed s hL e i hi, posVal_decomposed s hL (e + 1) 0 hL,
      getD_eq_get s.base_values hi, getD_eq_get s.base_values hL]
    have hub := hs.mantissa_ub (List.get_mem s.base_values i hi)
    have hlb := hs.mantissa_lb (List.get_mem s.base_values 0 hL)
    have hsucc := pow10_succ s.base_exponent
    have h1 : (s.base_values.get ⟨i, hi⟩ : ℚ) < (s.base_values.get ⟨0, hL⟩ : ℚ) * 10 := by
      linarith
    calc (s.base_values.get ⟨i, hi⟩ : ℚ) * pow10 e
        < ((s.base_values.get ⟨0, hL⟩ : ℚ) * 10) * pow10 e :=
          mul_lt_mul_of_pos_right h1 (pow10_pos e)
      _ = (s.base_values.get ⟨0, hL⟩ : ℚ) * pow10 (e + 1) := by rw [pow10_succ]; ring

theorem posVal_strictMono (s : ESeries) (hs : s.valid) : StrictMono s.posVal :=
  strictMono_int_of_lt_succ (posVal_lt_succ s hs)

/-- The normalised `iterate_up` state before iteration `n` sits at linear
position `upPos + n`, with an index inside the table. -/
theorem upState_spec (s : ESeries) (value : ℚ) (hs : s.valid) : ∀ n : ℕ,
    (s.upNorm (s.upState value n)).1 < s.base_values.length ∧
    ((s.upNorm (s.upState value n)).2 * (s.base_values.length : ℤ) +
      ((s.upNorm (s.upState value n)).1 : ℤ) = s.upPos value + (n : ℤ)) := by
  have hL : 0 < s.base_values.length := hs.length_pos
  intro n
  induction n with
  | zero =>
    have hble : bisect_left s.base_values
        (value / pow10 (floor_log10 value - s.base_exponent)) ≤ s.base_values.length :=
      bisect_left_le_length _ _
    simp only [upState, upStart, upNorm, upPos]
    by_cases htop : s.base_values.length ≤ bisect_left s.base_values
        (value / pow10 (floor_log10 value - s.base_exponent))
    · rw [if_pos htop]
      have hbleq : bisect_left s.base_values
          (value / pow10 (floor_log10 value - s.base_exponent)) = s.base_values.length := by
        omega
      refine ⟨hL, ?_⟩
      rw [hbleq]
      push_cast
      ring
    · rw [if_neg htop]
      refine ⟨by omega, ?_⟩
      push_cast
      ring
  | succ n ih =>
    obtain ⟨ih1, ih2⟩ := ih
    have hstep : s.upState value (n + 1) =
        ((s.upNorm (s.upState value n)).1 + 1, (s.upNorm (s.upState value n)).2) := rfl
    have hnorm : s.upNorm ((s.upNorm (s.upState value n)).1 + 1, (s.upNorm (s.upState value n)).2) =
        if s.base_values.length ≤ (s.upNorm (s.upState value n)).1 + 1 then
          (0, (s.upNorm (s.upState value n)).2 + 1)
        else ((s.upNorm (s.upState value n)).1 + 1, (s.upNorm (s.upState value n)).2) := rfl
    rw [hstep, hnorm]
    by_cases htop : s.base_values.length ≤ (s.upNorm (s.upState value n)).1 + 1
    · rw [if_pos htop]
      have hieq : (s.upNorm (s.upState value n)).1 + 1 = s.base_values.length := by omega
      refine ⟨hL, ?_⟩
      show ((s.upNorm (s.upState value n)).2 + 1) * (s.base_values.length : ℤ) + ((0 : ℕ) : ℤ) =
        s.upPos value + ((n + 1 : ℕ) : ℤ)
      have hexp : ((s.upNorm (s.upState value n)).2 + 1) * (s.base_values.length : ℤ) =
          (s.upNorm (s.upState value n)).2 * (s.base_values.length : ℤ) +
            (s.base_values.length : ℤ) := by ring
      have hlen : ((s.base_values.length : ℕ) : ℤ) =
          ((s.upNorm (s.upState value n)).1 : ℤ) + 1 := by exact_mod_cast hieq.symm
      push_cast
      push_cast at ih2
      linarith
    · rw [if_neg htop]
      refine ⟨by omega, ?_⟩
      show (s.upNorm (s.upState value n)).2 * (s.base_values.length : ℤ) +
          (((s.upNorm (s.upState value n)).1 + 1 : ℕ) : ℤ) = s.upPos value + ((n + 1 : ℕ) : ℤ)
      push_cast
      push_cast at ih2
      linarith

/-- Closed form of `iterate_up`: consecutive position valuations. -/
theorem iterate_up_eq (s : ESeries) (value : ℚ) (hs : s.valid) (n : ℕ) :
    s.iterate_up value n = s.posVal (s.upPos value + (n : ℤ)) := by
  obtain ⟨h1, h2⟩ := upState_spec s value hs n
  unfold iterate_up
  rw [emit_eq, ← h2, posVal_decomposed s hs.length_pos _ _ h1]

/-- The normalised `iterate_down` state before iteration `n` sits at linear
position `downPos - n`, with an index inside the table. -/
theorem downState_spec (s : ESeries) (value : ℚ) (hs : s.valid) : ∀ n : ℕ,
    0 ≤ (s.downNorm (s.downState value n)).1 ∧
    (s.downNorm (s.downState value n)).1 < (s.base_values.length : ℤ) ∧
    ((s.downNorm (s.downState value n)).2 * (s.base_values.length : ℤ) +
      (s.downNorm (s.downState value n)).1 = s.downPos value - (n : ℤ)) := by
  have hL : 0 < s.base_values.length := hs.length_pos
  have hLz : (0 : ℤ) < (s.base_values.length : ℤ) := by exact_mod_cast hL
  intro n
  induction n with
  | zero =>
    have hbre : bisect_right s.base_values
        (value / pow10 (floor_log10 value - s.base_exponent)) ≤ s.base_values.length :=
      bisect_right_le_length _ _
    simp only [downState, downStart, downNorm, downPos]
    by_cases hneg : (bisect_right s.base_values
        (value / pow10 (floor_log10 value - s.base_exponent)) : ℤ) - 1 < 0
    · rw [if_pos hneg]
      have hbr0 : bisect_right s.base_values
          (value / pow10 (floor_log10 value - s.base_exponent)) = 0 := by omega
      refine ⟨by omega, by omega, ?_⟩
      rw [hbr0]
      push_cast
      ring
    · rw [if_neg hneg]
      refine ⟨by omega, by push_cast; omega, ?_⟩
      push_cast
      ring
  | succ n ih =>
    obtain ⟨ih0, ih1, ih2⟩ := ih
    have hstep : s.downState value (n + 1) =
        ((s.downNorm (s.downState value n)).1 - 1, (s.downNorm (s.downState value n)).2) := rfl
    have hnorm : s.downNorm
        ((s.downNorm (s.downState value n)).1 - 1, (s.downNorm (s.downState value n)).2) =
        if (s.downNorm (s.downState value n)).1 - 1 < 0 then
          ((s.base_values.length : ℤ) - 1, (s.downNorm (s.downState value n)).2 - 1)
        else ((s.downNorm (s.downState value n)).1 - 1, (s.downNorm (s.downState value n)).2) := rfl
    rw [hstep, hnorm]
    by_cases hneg : (s.downNorm (s.downState value n)).1 - 1 < 0
    · rw [if_pos hneg]
      have hzero : (s.downNorm (s.downState value n)).1 = 0 := by omega
      refine ⟨by omega, by omega, ?_⟩
      show ((s.downNorm (s.downState value n)).2 - 1) * (s.base_values.length : ℤ) +
          ((s.base_values.length : ℤ) - 1) = s.downPos value - ((n + 1 : ℕ) : ℤ)
      have hexp : ((s.downNorm (s.downState value n)).2 - 1) * (s.base_values.length : ℤ) =
          (s.downNorm (s.downState value n)).2 * (s.base_values.length : ℤ) -
            (s.base_values.length : ℤ) := by ring
      push_cast
      push_cast at ih2
      linarith [hzero]
    · rw [if_neg hneg]
      refine ⟨by omega, by omega, ?_⟩
      show (s.downNorm (s.downState value n)).2 * (s.base_values.length : ℤ) +
          ((s.downNorm (s.downState value n)).1 - 1) = s.downPos value - ((n + 1 : ℕ) : ℤ)
      push_cast
      push_cast at ih2
      linarith

/-- Closed form of `iterate_down`: descending consecutive position valuations. -/
theorem iterate_down_eq (s : ESeries) (value : ℚ) (hs : s.valid) (n : ℕ) :
    s.iterate_down value n = s.posVal (s.downPos value - (n : ℤ)) := by
  obtain ⟨h0, h1, h2⟩ := downState_spec s value hs n
  unfold iterate_down
  rw [emit_eq, ← h2]
  have harg : (s.downNorm (s.downState value n)).2 * (s.base_values.length : ℤ) +
      (s.downNorm (s.downState value n)).1 =
      (s.downNorm (s.downState value n)).2 * (s.base_values.length : ℤ) +
      (((s.downNorm (s.downState value n)).1.toNat : ℕ) : ℤ) := by omega
  rw [harg, posVal_decomposed s hs.length_pos _ _ (by omega)]

end ESeries

namespace ESeries

/-- The mantissa-scale position `p = value / 10 ** exponent_offset` lies in
the table's decade `[10^B, 10^(B+1))`. -/
theorem scaled_value_bounds (s : ESeries) (value : ℚ) (hv : 0 < value) :
    pow10 s.base_exponent ≤ value / pow10 (floor_log10 value - s.base_exponent) ∧
    value / pow10 (floor_log10 value - s.base_exponent) < pow10 (s.base_exponent + 1) := by
  obtain ⟨hlo, hhi⟩ := floor_log10_spec value hv
  have hppos := pow10_pos (floor_log10 value - s.base_exponent)
  constructor
  · rw [le_div_iff hppos, ← pow10_add]
    calc pow10 (s.base_exponent + (floor_log10 value - s.base_exponent))
        = pow10 (floor_log10 value) := by congr 1; ring
      _ ≤ value := hlo
  · rw [div_lt_iff hppos, ← pow10_add]
    calc value < pow10 (floor_log10 value + 1) := hhi
      _ = pow10 (s.base_exponent + 1 + (floor_log10 value - s.base_exponent)) := by
          congr 1; ring

/-- Bracketing of the `bisect_left` starting position: the valuation there
is at least `p * 10^e`, and the valuation one position earlier is below it. -/
theorem upPos_bracket_aux (s : ESeries) (hs : s.valid) (p : ℚ) (e : ℤ)
    (hplo : pow10 s.base_exponent ≤ p) (hphi : p < pow10 (s.base_exponent + 1)) :
    p * pow10 e ≤
      s.posVal (e * (s.base_values.length : ℤ) + (bisect_left s.base_values p : ℤ)) ∧
    s.posVal (e * (s.base_values.length : ℤ) + (bisect_left s.base_values p : ℤ) - 1) <
      p * pow10 e := by
  have hL : 0 < s.base_values.length := hs.length_pos
  have hble : bisect_left s.base_values p ≤ s.base_values.length := bisect_left_le_length _ _
  constructor
  · by_cases hcase : bisect_left s.base_values p < s.base_values.length
    · rw [posVal_decomposed s hL e _ hcase, getD_eq_get s.base_values hcase]
      exact mul_le_mul_of_nonneg_right (bisect_left_ge s.base_values p hcase)
        (le_of_lt (pow10_pos e))
    · have hbleq : bisect_left s.base_values p = s.base_values.length := by omega
      have harg : e * (s.base_values.length : ℤ) + (bisect_left s.base_values p : ℤ) =
          (e + 1) * (s.base_values.length : ℤ) + ((0 : ℕ) : ℤ) := by
        rw [hbleq]; push_cast; ring
      rw [harg, posVal_decomposed s hL (e + 1) 0 hL, getD_eq_get s.base_values hL]
      have hlb := hs.mantissa_lb (List.get_mem s.base_values 0 hL)
      calc p * pow10 e ≤ pow10 (s.base_exponent + 1) * pow10 e :=
            mul_le_mul_of_nonneg_right (le_of_lt hphi) (le_of_lt (pow10_pos e))
        _ = pow10 s.base_exponent * pow10 (e + 1) := by
            rw [← pow10_add, ← pow10_add]; congr 1; ring
        _ ≤ (s.base_values.get ⟨0, hL⟩ : ℚ) * pow10 (e + 1) :=
            mul_le_mul_of_nonneg_right hlb (le_of_lt (pow10_pos _))
  · by_cases hcase : 0 < bisect_left s.base_values p
    · have hidx : bisect_left s.base_values p - 1 < s.base_values.length := by omega
      have harg : e * (s.base_values.length : ℤ) + (bisect_left s.base_values p : ℤ) - 1 =
          e * (s.base_values.length : ℤ) + ((bisect_left s.base_values p - 1 : ℕ) : ℤ) := by
        omega
      rw [harg, posVal_decomposed s hL e _ hidx, getD_eq_get s.base_values hidx]
      exact mul_lt_mul_of_pos_right (bisect_left_lt hidx (by omega)) (pow10_pos e)
    · have hbl0 : bisect_left s.base_values p = 0 := by omega
      have hidx : s.base_values.length - 1 < s.base_values.length := by omega
      have harg : e * (s.base_values.length : ℤ) + (bisect_left s.base_values p : ℤ) - 1 =
          (e - 1) * (s.base_values.length : ℤ) + ((s.base_values.length - 1 : ℕ) : ℤ) := by
        rw [hbl0]
        have : ((s.base_values.length - 1 : ℕ) : ℤ) = (s.base_values.length : ℤ) - 1 := by
          omega
        rw [this]; push_cast; ring
      rw [harg, posVal_decomposed s hL (e - 1) _ hidx, getD_eq_get s.base_values hidx]
      have hub := hs.mantissa_ub (List.get_mem s.base_values _ hidx)
      calc (s.base_values.get ⟨s.base_values.length - 1, hidx⟩ : ℚ) * pow10 (e - 1)
          < pow10 (s.base_exponent + 1) * pow10 (e - 1) :=
            mul_lt_mul_of_pos_right hub (pow10_pos _)
        _ = pow10 s.base_exponent * pow10 e := by
            rw [← pow10_add, ← pow10_add]; congr 1; ring
        _ ≤ p * pow10 e := mul_le_mul_of_nonneg_right hplo (le_of_lt (pow10_pos e))

/-- Bracketing of the `bisect_right - 1` starting position: the valuation
there is at most `p * 10^e`, and the valuation one position later exceeds it. -/
theorem downPos_bracket_aux (s : ESeries) (hs : s.valid) (p : ℚ) (e : ℤ)
    (hplo : pow10 s.base_exponent ≤ p) (hphi : p < pow10 (s.base_exponent + 1)) :
    s.posVal (e * (s.base_values.length : ℤ) + (bisect_right s.base_values p : ℤ) - 1) ≤
      p * pow10 e ∧
    p * pow10 e <
      s.posVal (e * (s.base_values.length : ℤ) + (bisect_right s.base_values p : ℤ)) := by
  have hL : 0 < s.base_values.length := hs.length_pos
  have hbre : bisect_right s.base_values p ≤ s.base_values.length := bisect_right_le_length _ _
  constructor
  · by_cases hcase : 0 < bisect_right s.base_values p
    · have hidx : bisect_right s.base_values p - 1 < s.base_values.length := by omega
      have harg : e * (s.base_values.length : ℤ) + (bisect_right s.base_values p : ℤ) - 1 =
          e * (s.base_values.length : ℤ) + ((bisect_right s.base_values p - 1 : ℕ) : ℤ) := by
        omega
      rw [harg, posVal_decomposed s hL e _ hidx, getD_eq_get s.base_values hidx]
      exact mul_le_mul_of_nonneg_right (bisect_right_le hidx (by omega))
        (le_of_lt (pow10_pos e))
    · have hbr0 : bisect_right s.base_values p = 0 := by omega
      have hidx : s.base_values.length - 1 < s.base_values.length := by omega
      have harg : e * (s.base_values.length : ℤ) + (bisect_right s.base_values p : ℤ) - 1 =
          (e - 1) * (s.base_values.length : ℤ) + ((s.base_values.length - 1 : ℕ) : ℤ) := by
        rw [hbr0]
        have : ((s.base_values.length - 1 : ℕ) : ℤ) = (s.base_values.length : ℤ) - 1 := by
          omega
        rw [this]; push_cast; ring
      rw [harg, posVal_decomposed s hL (e - 1) _ hidx, getD_eq_get s.base_values hidx]
      have hub := hs.mantissa_ub (List.get_mem s.base_values _ hidx)
      calc (s.base_values.get ⟨s.base_values.length - 1, hidx⟩ : ℚ) * pow10 (e - 1)
          ≤ pow10 (s.base_exponent + 1) * pow10 (e - 1) :=
            mul_le_mul_of_nonneg_right (le_of_lt hub) (le_of_lt (pow10_pos _))
        _ = pow10 s.base_exponent * pow10 e := by
            rw [← pow10_add, ← pow10_add]; congr 1; ring
        _ ≤ p * pow10 e := mul_le_mul_of_nonneg_right hplo (le_of_lt (pow10_pos e))
  · by_cases hcase : bisect_right s.base_values p < s.base_values.length
    · rw [posVal_decomposed s hL e _ hcase, getD_eq_get s.base_values hcase]
      exact mul_lt_mul_of_pos_right (bisect_right_gt s.base_values p hcase) (pow10_pos e)
    · have hbreq : bisect_right s.base_values p = s.base_values.length := by omega
      have harg : e * (s.base_values.length : ℤ) + (bisect_right s.base_values p : ℤ) =
          (e + 1) * (s.base_values.length : ℤ) + ((0 : ℕ) : ℤ) := by
        rw [hbreq]; push_cast; ring
      rw [harg, posVal_decomposed s hL (e + 1) 0 hL, getD_eq_get s.base_values hL]
      have hlb := hs.mantissa_lb (List.get_mem s.base_values 0 hL)
      calc p * pow10 e < pow10 (s.base_exponent + 1) * pow10 e :=
            mul_lt_mul_of_pos_right hphi (pow10_pos e)
        _ = pow10 s.base_exponent * pow10 (e + 1) := by
            rw [← pow10_add, ← pow10_add]; congr 1; ring
        _ ≤ (s.base_values.get ⟨0, hL⟩ : ℚ) * pow10 (e + 1) :=
            mul_le_mul_of_nonneg_right hlb (le_of_lt (pow10_pos _))

end ESeries

namespace ESeries

theorem upPos_bracket (s : ESeries) (value : ℚ) (hs : s.valid) (hv : 0 < value) :
    value ≤ s.posVal (s.upPos value) ∧ s.posVal (s.upPos value - 1) < value := by
  obtain ⟨hplo, hphi⟩ := scaled_value_bounds s value hv
  obtain ⟨h1, h2⟩ :=
    upPos_bracket_aux s hs (value / pow10 (floor_log10 value - s.base_exponent))
      (floor_log10 value - s.base_exponent) hplo hphi
  have hval : value / pow10 (floor_log10 value - s.base_exponent) *
      pow10 (floor_log10 value - s.base_exponent) = value :=
    div_mul_cancel₀ value (pow10_ne_zero _)
  rw [hval] at h1 h2
  exact ⟨h1, h2⟩

theorem downPos_bracket (s : ESeries) (value : ℚ) (hs : s.valid) (hv : 0 < value) :
    s.posVal (s.downPos value) ≤ value ∧ value < s.posVal (s.downPos value + 1) := by
  obtain ⟨hplo, hphi⟩ := scaled_value_bounds s value hv
  obtain ⟨h1, h2⟩ :=
    downPos_bracket_aux s hs (value / pow10 (floor_log10 value - s.base_exponent))
      (floor_log10 value - s.base_exponent) hplo hphi
  have hval : value / pow10 (floor_log10 value - s.base_exponent) *
      pow10 (floor_log10 value - s.base_exponent) = value :=
    div_mul_cancel₀ value (pow10_ne_zero _)
  rw [hval] at h1 h2
  constructor
  · exact h1
  · have harg : s.downPos value + 1 =
        (floor_log10 value - s.base_exponent) * (s.base_values.length : ℤ) +
          (bisect_right s.base_values
            (value / pow10 (floor_log10 value - s.base_exponent)) : ℤ) := by
      unfold downPos
      ring
    rw [harg]
    exact h2

theorem fGE_eq (s : ESeries) (value : ℚ) (hs : s.valid) :
    s.find_greater_than_or_equal value = s.posVal (s.upPos value) := by
  unfold find_greater_than_or_equal
  rw [iterate_up_eq s value hs 0]
  norm_num

theorem fLE_eq (s : ESeries) (value : ℚ) (hs : s.valid) :
    s.find_less_than_or_equal value = s.posVal (s.downPos value) := by
  unfold find_less_than_or_equal
  rw [iterate_down_eq s value hs 0]
  norm_num

/-- Members of a valid series are positive. -/
theorem isMember_pos (s : ESeries) (hs : s.valid) {w : ℚ} (hw : s.isMember w) : 0 < w := by
  obtain ⟨m, hm, e, hwe⟩ := hw
  have hlb := hs.mantissa_lb hm
  have h0 : (0 : ℚ) < (m : ℚ) := lt_of_lt_of_le (pow10_pos s.base_exponent) hlb
  rw [hwe]
  exact mul_pos h0 (pow10_pos e)

theorem value_le_fGE (s : ESeries) (value : ℚ) (hs : s.valid) (hv : 0 < value) :
    value ≤ s.find_greater_than_or_equal value := by
  rw [fGE_eq s value hs]
  exact (upPos_bracket s value hs hv).1

theorem fLE_le_value (s : ESeries) (value : ℚ) (hs : s.valid) (hv : 0 < value) :
    s.find_less_than_or_equal value ≤ value := by
  rw [fLE_eq s value hs]
  exact (downPos_bracket s value hs hv).1

theorem fGE_isMember (s : ESeries) (value : ℚ) (hs : s.valid) :
    s.isMember (s.find_greater_than_or_equal value) := by
  rw [fGE_eq s value hs]
  exact posVal_isMember s hs _

theorem fLE_isMember (s : ESeries) (value : ℚ) (hs : s.valid) :
    s.isMember (s.find_less_than_or_equal value) := by
  rw [fLE_eq s value hs]
  exact posVal_isMember s hs _

/-- `find_greater_than_or_equal` is the least member at or above the query. -/
theorem fGE_least (s : ESeries) (value : ℚ) (hs : s.valid) (hv : 0 < value)
    {w : ℚ} (hw : s.isMember w) (hvw : value ≤ w) :
    s.find_greater_than_or_equal value ≤ w := by
  obtain ⟨t, ht⟩ := isMember_posVal s hs hw
  rw [fGE_eq s value hs, ← ht]
  have hmono := posVal_strictMono s hs
  have hlt : s.upPos value - 1 < t := by
    by_contra hcon
    push_neg at hcon
    have hle : s.posVal t ≤ s.posVal (s.upPos value - 1) := hmono.monotone hcon
    have hbr := (upPos_bracket s value hs hv).2
    rw [ht] at hle
    linarith
  exact hmono.monotone (by omega)

/-- `find_less_than_or_equal` is the greatest member at or below the query. -/
theorem fLE_greatest (s : ESeries) (value : ℚ) (hs : s.valid) (hv : 0 < value)
    {w : ℚ} (hw : s.isMember w) (hwv : w ≤ value) :
    w ≤ s.find_less_than_or_equal value := by
  obtain ⟨t, ht⟩ := isMember_posVal s hs hw
  rw [fLE_eq s value hs, ← ht]
  have hmono := posVal_strictMono s hs
  have hlt : t < s.downPos value + 1 := by
    by_contra hcon
    push_neg at hcon
    have hle : s.posVal (s.downPos value + 1) ≤ s.posVal t := hmono.monotone hcon
    have hbr := (downPos_bracket s value hs hv).2
    rw [ht] at hle
    linarith
  exact hmono.monotone (by omega)

/-- When the query is itself a member, both inclusive searches return it
exactly (the C4 core). -/
theorem find_exact_core (s : ESeries) (value : ℚ) (hs : s.valid)
    (hmem : s.isMember value) :
    s.find_greater_than_or_equal value = value ∧
      s.find_less_than_or_equal value = value := by
  have hv : 0 < value := isMember_pos s hs hmem
  constructor
  · exact le_antisymm (fGE_least s value hs hv hmem le_rfl) (value_le_fGE s value hs hv)
  · exact le_antisymm (fLE_le_value s value hs hv) (fLE_greatest s value hs hv hmem le_rfl)

end ESeries

namespace ESeries

/-- After `rangeFuel` generator steps the ascending walk is strictly past
`stop`, so the source's `while True` loop with the stop test terminates
within the modelled window. -/
theorem rangeFuel_overshoots (s : ESeries) (start stop : ℚ) (hs : s.valid)
    (hstart : 0 < start) (hstop : 0 < stop) :
    stop < s.posVal (s.upPos start + (s.rangeFuel start stop : ℤ)) := by
  have hL : 0 < s.base_values.length := hs.length_pos
  have hLz : (0 : ℤ) < (s.base_values.length : ℤ) := by exact_mod_cast hL
  set t : ℤ := s.upPos start + (s.rangeFuel start stop : ℤ) with htdef
  have hfuel : ((s.rangeFuel start stop : ℕ) : ℤ) =
      (s.base_values.length : ℤ) * (((floor_log10 stop - floor_log10 start).toNat : ℤ) + 2) := by
    unfold rangeFuel
    push_cast
    ring
  have hupPos_ge : (floor_log10 start - s.base_exponent) * (s.base_values.length : ℤ) ≤
      s.upPos start := by
    unfold upPos
    have h0 : (0 : ℤ) ≤ (bisect_left s.base_values
        (start / pow10 (floor_log10 start - s.base_exponent)) : ℤ) := Int.ofNat_nonneg _
    linarith
  have ht_ge : (floor_log10 start - s.base_exponent +
      ((floor_log10 stop - floor_log10 start).toNat : ℤ) + 2) *
      (s.base_values.length : ℤ) ≤ t := by
    rw [htdef, hfuel]
    have hexp : (floor_log10 start - s.base_exponent +
        ((floor_log10 stop - floor_log10 start).toNat : ℤ) + 2) *
        (s.base_values.length : ℤ) =
        (floor_log10 start - s.base_exponent) * (s.base_values.length : ℤ) +
        (s.base_values.length : ℤ) *
          (((floor_log10 stop - floor_log10 start).toNat : ℤ) + 2) := by ring
    linarith
  have hqge : floor_log10 start - s.base_exponent +
      ((floor_log10 stop - floor_log10 start).toNat : ℤ) + 2 ≤
      t / (s.base_values.length : ℤ) := (Int.le_ediv_iff_mul_le hLz).mpr ht_ge
  have hdm0 : 0 ≤ t % (s.base_values.length : ℤ) := Int.emod_nonneg _ (ne_of_gt hLz)
  have hdmlt : t % (s.base_values.length : ℤ) < (s.base_values.length : ℤ) :=
    Int.emod_lt_of_pos _ hLz
  have hidx : (t % (s.base_values.length : ℤ)).toNat < s.base_values.length := by omega
  have hval : s.posVal t =
      (s.base_values.get ⟨(t % (s.base_values.length : ℤ)).toNat, hidx⟩ : ℚ) *
        pow10 (t / (s.base_values.length : ℤ)) := by
    unfold posVal
    rw [getD_eq_get s.base_values hidx]
  have hlb := hs.mantissa_lb (List.get_mem s.base_values _ hidx)
  have htoNat := Int.self_le_toNat (floor_log10 stop - floor_log10 start)
  calc stop < pow10 (floor_log10 stop + 1) := (floor_log10_spec stop hstop).2
    _ ≤ pow10 (s.base_exponent + t / (s.base_values.length : ℤ)) :=
        pow10_le_pow10 (by linarith)
    _ = pow10 s.base_exponent * pow10 (t / (s.base_values.length : ℤ)) := pow10_add _ _
    _ ≤ (s.base_values.get ⟨(t % (s.base_values.length : ℤ)).toNat, hidx⟩ : ℚ) *
        pow10 (t / (s.base_values.length : ℤ)) :=
        mul_le_mul_of_nonneg_right hlb (le_of_lt (pow10_pos _))
    _ = s.posVal t := hval.symm

/-- `range` yields exactly the members in the requested window. -/
theorem range_mem_iff (s : ESeries) (start stop : ℚ) (include_stop : Bool)
    (hs : s.valid) (hstart : 0 < start) (hstop : 0 < stop) (w : ℚ) :
    w ∈ s.range start stop include_stop ↔
      s.isMember w ∧ start ≤ w ∧ (if include_stop then w ≤ stop else w < stop) := by
  have hmono := posVal_strictMono s hs
  constructor
  · intro hw
    have hpred := List.mem_takeWhile_imp hw
    have hwmap : w ∈ (List.range (s.rangeFuel start stop)).map fun n =>
        s.iterate_up start n := mem_takeWhile_mem _ _ _ hw
    obtain ⟨n, hnr, hfn⟩ := List.mem_map.mp hwmap
    have hn : n < s.rangeFuel start stop := List.mem_range.mp hnr
    have hweq : w = s.posVal (s.upPos start + (n : ℤ)) := by
      rw [← hfn, iterate_up_eq s start hs n]
    refine ⟨?_, ?_, ?_⟩
    · rw [hweq]; exact posVal_isMember s hs _
    · rw [hweq]
      calc start ≤ s.posVal (s.upPos start) := (upPos_bracket s start hs hstart).1
        _ ≤ s.posVal (s.upPos start + (n : ℤ)) := hmono.monotone (by omega)
    · cases include_stop with
      | true => simpa using hpred
      | false => simpa using hpred
  · rintro ⟨hmem, hstartw, hstopw⟩
    obtain ⟨t, ht⟩ := isMember_posVal s hs hmem
    have htge : s.upPos start ≤ t := by
      by_contra hcon
      push_neg at hcon
      have hle : s.posVal t ≤ s.posVal (s.upPos start - 1) := hmono.monotone (by omega)
      have hbr := (upPos_bracket s start hs hstart).2
      rw [ht] at hle
      linarith
    have hwlestop : w ≤ stop := by
      cases include_stop with
      | true => simpa using hstopw
      | false => exact le_of_lt (by simpa using hstopw)
    have htlt : t < s.upPos start + (s.rangeFuel start stop : ℤ) := by
      have hover := rangeFuel_overshoots s start stop hs hstart hstop
      have : s.posVal t < s.posVal (s.upPos start + (s.rangeFuel start stop : ℤ)) := by
        rw [ht]; linarith
      exact hmono.lt_iff_lt.mp this
    have hneq : t = s.upPos start + ((t - s.upPos start).toNat : ℤ) := by omega
    have hnlt : (t - s.upPos start).toNat < s.rangeFuel start stop := by omega
    have hlenmap : ((List.range (s.rangeFuel start stop)).map fun n =>
        s.iterate_up start n).length = s.rangeFuel start stop := by simp
    have hget : ∀ (k : ℕ) (hk : k < ((List.range (s.rangeFuel start stop)).map fun n =>
        s.iterate_up start n).length),
        ((List.range (s.rangeFuel start stop)).map fun n => s.iterate_up start n).get ⟨k, hk⟩ =
          s.iterate_up start k := by
      intro k hk
      simp [List.get_eq_getElem]
    have hnlt2 : (t - s.upPos start).toNat < ((List.range (s.rangeFuel start stop)).map fun n =>
        s.iterate_up start n).length := by rw [hlenmap]; exact hnlt
    have hkey := get_mem_takeWhile
      (fun v : ℚ => if include_stop then decide (v ≤ stop) else decide (v < stop))
      ((List.range (s.rangeFuel start stop)).map fun n => s.iterate_up start n)
      (t - s.upPos start).toNat hnlt2 ?_
    · have hgetn : ((List.range (s.rangeFuel start stop)).map fun n =>
          s.iterate_up start n).get ⟨(t - s.upPos start).toNat, hnlt2⟩ = w := by
        rw [hget _ hnlt2, iterate_up_eq s start hs _, ← hneq, ht]
      rw [hgetn] at hkey
      exact hkey
    · intro k hk
      rw [hget _ (lt_of_le_of_lt hk hnlt2)]
      have hkval : s.iterate_up start k ≤ w := by
        rw [iterate_up_eq s start hs k, ← ht, hneq]
        exact hmono.monotone (by omega)
      cases include_stop with
      | true => simp only [if_true]; exact decide_eq_true (by linarith)
      | false =>
        simp only [Bool.false_eq_true, if_false]
        have hwlt : w < stop := by simpa using hstopw
        exact decide_eq_true (by linarith)

/-- `range` output is strictly ascending (hence duplicate-free). -/
theorem range_sorted (s : ESeries) (start stop : ℚ) (include_stop : Bool) (hs : s.valid) :
    List.Pairwise (· < ·) (s.range start stop include_stop) := by
  unfold range
  have hmono := posVal_strictMono s hs
  have hmap : List.Pairwise (· < ·) ((List.range (s.rangeFuel start stop)).map fun n =>
      s.iterate_up start n) := by
    rw [List.pairwise_map]
    refine (List.pairwise_lt_range (s.rangeFuel start stop)).imp ?_
    intro a b hab
    rw [iterate_up_eq s start hs a, iterate_up_eq s start hs b]
    exact hmono (by omega)
  exact pairwise_takeWhile _ _ hmap

end ESeries

namespace ESeries

theorem iterate_up_strict (s : ESeries) (value : ℚ) (hs : s.valid) {a b : ℕ} (hab : a < b) :
    s.iterate_up value a < s.iterate_up value b := by
  rw [iterate_up_eq s value hs a, iterate_up_eq s value hs b]
  exact (posVal_strictMono s hs) (by omega)

theorem iterate_down_strict (s : ESeries) (value : ℚ) (hs : s.valid) {a b : ℕ} (hab : a < b) :
    s.iterate_down value b < s.iterate_down value a := by
  rw [iterate_down_eq s value hs a, iterate_down_eq s value hs b]
  exact (posVal_strictMono s hs) (by omega)

/-- `find_nearest` returns one of the two inclusive searches. -/
theorem find_nearest_eq_or (s : ESeries) (value : ℚ) :
    s.find_nearest value = s.find_greater_than_or_equal value ∨
    s.find_nearest value = s.find_less_than_or_equal value := by
  unfold find_nearest
  by_cases hcmp : |s.find_greater_than_or_equal value / value - 1| <
      |s.find_less_than_or_equal value / value - 1|
  · rw [if_pos hcmp]; left; rfl
  · rw [if_neg hcmp]; right; rfl

theorem find_nearest_isMember (s : ESeries) (value : ℚ) (hs : s.valid) :
    s.isMember (s.find_nearest value) := by
  rcases find_nearest_eq_or s value with h | h <;> rw [h]
  · exact fGE_isMember s value hs
  · exact fLE_isMember s value hs

/-- On an exact member, `find_nearest` is the identity. -/
theorem find_nearest_self (s : ESeries) (w : ℚ) (hs : s.valid) (hmem : s.isMember w) :
    s.find_nearest w = w := by
  obtain ⟨hg, hl⟩ := find_exact_core s w hs hmem
  unfold find_nearest
  rw [hg, hl]
  simp

end ESeries

theorem E12_valid : E12.valid := by
  refine ⟨by decide, by decide, ?_⟩
  have hbounds : ∀ m ∈ E12.base_values, 10 ≤ m ∧ m < 100 := by decide
  intro m hm
  obtain ⟨h1, h2⟩ := hbounds m hm
  have hbe : E12.base_exponent = 1 := rfl
  rw [hbe]
  constructor
  · have hp : pow10 (1 : ℤ) = 10 := by norm_num [pow10]
    rw [hp]; exact_mod_cast h1
  · have hp : pow10 ((1 : ℤ) + 1) = 100 := by norm_num [pow10]
    rw [hp]; exact_mod_cast h2

theorem floor_log10_31 : floor_log10 31 = 1 := by
  have h1 : (1 : ℚ) ≤ 31 := by norm_num
  have hfl : ⌊(31 : ℚ)⌋ = 31 := by
    rw [Int.floor_eq_iff] <;> norm_num
  unfold floor_log10
  rw [if_pos h1, hfl]
  decide

theorem E12_p31 : (31 : ℚ) / pow10 (floor_log10 31 - E12.base_exponent) = 31 := by
  rw [floor_log10_31]
  have hbe : E12.base_exponent = 1 := rfl
  rw [hbe]
  norm_num [pow10]

theorem E12_down_31_0 : E12.iterate_down 31 0 = 27 := by
  have hstart : E12.downStart 31 = (5, 0) := by
    unfold ESeries.downStart
    rw [E12_p31]
    have hbr : bisect_right E12.base_values (31 : ℚ) = 6 := by decide
    rw [hbr, floor_log10_31]
    have hbe : E12.base_exponent = 1 := rfl
    rw [hbe]
    norm_num
  show E12.emit (E12.downNorm (E12.downStart 31)).1.toNat (E12.downNorm (E12.downStart 31)).2 = 27
  rw [hstart]
  have hnorm : E12.downNorm (5, 0) = (5, 0) := rfl
  rw [hnorm]
  show E12.emit 5 0 = 27
  unfold ESeries.emit
  norm_num
  have hget : E12.base_values[5]?.getD 0 = 27 := rfl
  rw [hget]
  norm_num

theorem E12_up_31_0 : E12.iterate_up 31 0 = 33 := by
  have hstart : E12.upStart 31 = (6, 0) := by
    unfold ESeries.upStart
    rw [E12_p31]
    have hbl : bisect_left E12.base_values (31 : ℚ) = 6 := by decide
    rw [hbl, floor_log10_31]
    have hbe : E12.base_exponent = 1 := rfl
    rw [hbe]
    norm_num
  show E12.emit (E12.upNorm (E12.upStart 31)).1 (E12.upNorm (E12.upStart 31)).2 = 33
  rw [hstart]
  have hnorm : E12.upNorm (6, 0) = (6, 0) := rfl
  rw [hnorm]
  show E12.emit 6 0 = 33
  unfold ESeries.emit
  norm_num
  have hget : E12.base_values[6]?.getD 0 = 33 := rfl
  rw [hget]
  norm_num

theorem E12_find_nearest_31 : E12.find_nearest 31 = 33 := by
  unfold ESeries.find_nearest
  have hg : E12.find_greater_than_or_equal 31 = 33 := E12_up_31_0
  have hl : E12.find_less_than_or_equal 31 = 27 := E12_down_31_0
  rw [hg, hl]
  have hcond : |(33 : ℚ) / 31 - 1| < |(27 : ℚ) / 31 - 1| := by
    rw [show (33 : ℚ) / 31 - 1 = 2 / 31 by norm_num,
      show (27 : ℚ) / 31 - 1 = -(4 / 31) by norm_num,
      abs_of_pos (by norm_num : (0 : ℚ) < 2 / 31), abs_neg,
      abs_of_pos (by norm_num : (0 : ℚ) < 4 / 31)]
    norm_num
  rw [if_pos hcond]

namespace ESeries

/-- `find_greater_than` succeeds and is strictly above the query. -/
theorem find_greater_than_spec (s : ESeries) (value : ℚ) (hs : s.valid) (hv : 0 < value) :
    ∃ g, s.find_greater_than value = some g ∧ value < g := by
  have hL : 0 < s.base_values.length := hs.length_pos
  obtain ⟨k, hk⟩ : ∃ k, s.base_values.length = k + 1 := ⟨s.base_values.length - 1, by omega⟩
  have hge : value ≤ s.iterate_up value 0 := value_le_fGE s value hs hv
  unfold find_greater_than
  rw [hk]
  have hscan0 : scanNe (s.iterate_up value) value 0 (k + 1 + 1) =
      if s.iterate_up value 0 = value then scanNe (s.iterate_up value) value 1 (k + 1)
      else some (s.iterate_up value 0) := rfl
  by_cases heq : s.iterate_up value 0 = value
  · have hlt01 : s.iterate_up value 0 < s.iterate_up value 1 :=
      iterate_up_strict s value hs (by omega)
    have hv01 : value < s.iterate_up value 1 := by
      calc value = s.iterate_up value 0 := heq.symm
        _ < s.iterate_up value 1 := hlt01
    have hne1 : ¬ s.iterate_up value 1 = value := ne_of_gt hv01
    have hscan1 : scanNe (s.iterate_up value) value 1 (k + 1) =
        if s.iterate_up value 1 = value then scanNe (s.iterate_up value) value 2 k
        else some (s.iterate_up value 1) := rfl
    rw [hscan0, if_pos heq, hscan1, if_neg hne1]
    exact ⟨s.iterate_up value 1, rfl, hv01⟩
  · rw [hscan0, if_neg heq]
    refine ⟨s.iterate_up value 0, rfl, ?_⟩
    exact lt_of_le_of_ne hge (fun h => heq h.symm)

/-- `find_less_than` succeeds and is strictly below the query. -/
theorem find_less_than_spec (s : ESeries) (value : ℚ) (hs : s.valid) (hv : 0 < value) :
    ∃ l, s.find_less_than value = some l ∧ l < value := by
  have hL : 0 < s.base_values.length := hs.length_pos
  obtain ⟨k, hk⟩ : ∃ k, s.base_values.length = k + 1 := ⟨s.base_values.length - 1, by omega⟩
  have hle : s.iterate_down value 0 ≤ value := fLE_le_value s value hs hv
  unfold find_less_than
  rw [hk]
  have hscan0 : scanNe (s.iterate_down value) value 0 (k + 1 + 1) =
      if s.iterate_down value 0 = value then scanNe (s.iterate_down value) value 1 (k + 1)
      else some (s.iterate_down value 0) := rfl
  by_cases heq : s.iterate_down value 0 = value
  · have hlt01 : s.iterate_down value 1 < s.iterate_down value 0 :=
      iterate_down_strict s value hs (by omega)
    have hv01 : s.iterate_down value 1 < value := by
      calc s.iterate_down value 1 < s.iterate_down value 0 := hlt01
        _ = value := heq
    have hne1 : ¬ s.iterate_down value 1 = value := ne_of_lt hv01
    have hscan1 : scanNe (s.iterate_down value) value 1 (k + 1) =
        if s.iterate_down value 1 = value then scanNe (s.iterate_down value) value 2 k
        else some (s.iterate_down value 1) := rfl
    rw [hscan0, if_pos heq, hscan1, if_neg hne1]
    exact ⟨s.iterate_down value 1, rfl, hv01⟩
  · rw [hscan0, if_neg heq]
    exact ⟨s.iterate_down value 0, rfl, lt_of_le_of_ne hle heq⟩

end ESeries

/-- `find_nearest_few` at count 3, with the validation and count tests
reduced away. -/
theorem find_nearest_few_three_eq (s : ESeries) (value : ℚ) :
    find_nearest_few s value 3 = Except.ok [s.iterate_down value 1, s.iterate_down value 0,
      if s.iterate_up value 0 = s.iterate_down value 0 then s.iterate_up value 1
      else s.iterate_up value 0] := by
  norm_num [find_nearest_few]

/-- `find_nearest_few` at count 1. -/
theorem find_nearest_few_one_eq (s : ESeries) (value : ℚ) :
    find_nearest_few s value 1 = Except.ok [s.iterate_down value 0] := by
  norm_num [find_nearest_few]

/-- Claim C1 (counterexample): at series E12 and value 31, `find_nearest_few`
with count 1 does not return `(find_nearest,)`: it returns `(27,)`, the
largest member at most 31, while `find_nearest` returns 33. -/
theorem find_nearest_few_one_counterexample :
    find_nearest_few E12 31 1 ≠ Except.ok [E12.find_nearest 31] := by
  intro hcon
  rw [find_nearest_few_one_eq, E12_down_31_0, E12_find_nearest_31] at hcon
  simp only [Except.ok.injEq, List.cons.injEq] at hcon
  norm_num at hcon

/-- Claim C1 (amended): for every valid series and positive value,
`find_nearest_few` with count 1 returns a one-element sequence whose single
element is `find_less_than_or_equal(value)`, the largest series member that
is at most the value. -/
theorem find_nearest_few_count_one (s : ESeries) (value : ℚ) (hs : s.valid) (hv : 0 < value) :
    find_nearest_few s value 1 = Except.ok [s.find_less_than_or_equal value] ∧
    s.find_less_than_or_equal value ≤ value ∧
    s.isMember (s.find_less_than_or_equal value) ∧
    (∀ w : ℚ, s.isMember w → w ≤ value → w ≤ s.find_less_than_or_equal value) :=
  ⟨find_nearest_few_one_eq s value, ESeries.fLE_le_value s value hs hv,
    ESeries.fLE_isMember s value hs,
    fun w hw hwv => ESeries.fLE_greatest s value hs hv hw hwv⟩

/-- Witness for C1's amended theorem, at E12 and value 31. -/
theorem find_nearest_few_count_one_witness :
    find_nearest_few E12 31 1 = Except.ok [E12.find_less_than_or_equal 31] ∧
    E12.find_less_than_or_equal 31 ≤ 31 ∧
    E12.isMember (E12.find_less_than_or_equal 31) ∧
    (∀ w : ℚ, E12.isMember w → w ≤ 31 → w ≤ E12.find_less_than_or_equal 31) :=
  find_nearest_few_count_one E12 31 E12_valid (by norm_num)

/-- Claim C2: `find_nearest` returns whichever of the two inclusive searches
has the smaller relative error `|x/value - 1|`, and on an exact tie it
returns `find_less_than_or_equal(value)`, the lower of the two. -/
theorem find_nearest_min_rel_error (s : ESeries) (value : ℚ) (hs : s.valid) (hv : 0 < value) :
    (s.find_nearest value = s.find_greater_than_or_equal value ∨
      s.find_nearest value = s.find_less_than_or_equal value) ∧
    |s.find_nearest value / value - 1| ≤ |s.find_greater_than_or_equal value / value - 1| ∧
    |s.find_nearest value / value - 1| ≤ |s.find_less_than_or_equal value / value - 1| ∧
    (|s.find_greater_than_or_equal value / value - 1| =
        |s.find_less_than_or_equal value / value - 1| →
      s.find_nearest value = s.find_less_than_or_equal value ∧
      s.find_less_than_or_equal value ≤ s.find_greater_than_or_equal value) := by
  have hle : s.find_less_than_or_equal value ≤ s.find_greater_than_or_equal value :=
    le_trans (ESeries.fLE_le_value s value hs hv) (ESeries.value_le_fGE s value hs hv)
  unfold ESeries.find_nearest
  by_cases hcmp : |s.find_greater_than_or_equal value / value - 1| <
      |s.find_less_than_or_equal value / value - 1|
  · rw [if_pos hcmp]
    refine ⟨Or.inl rfl, le_rfl, le_of_lt hcmp, fun heq => ?_⟩
    rw [heq] at hcmp
    exact absurd hcmp (lt_irrefl _)
  · rw [if_neg hcmp]
    push_neg at hcmp
    exact ⟨Or.inr rfl, hcmp, le_rfl, fun _ => ⟨rfl, hle⟩⟩

/-- Witness for C2 at E12 and value 31. -/
theorem find_nearest_min_rel_error_witness :
    (E12.find_nearest 31 = E12.find_greater_than_or_equal 31 ∨
      E12.find_nearest 31 = E12.find_less_than_or_equal 31) ∧
    |E12.find_nearest 31 / 31 - 1| ≤ |E12.find_greater_than_or_equal 31 / 31 - 1| ∧
    |E12.find_nearest 31 / 31 - 1| ≤ |E12.find_less_than_or_equal 31 / 31 - 1| ∧
    (|E12.find_greater_than_or_equal 31 / 31 - 1| =
        |E12.find_less_than_or_equal 31 / 31 - 1| →
      E12.find_nearest 31 = E12.find_less_than_or_equal 31 ∧
      E12.find_less_than_or_equal 31 ≤ E12.find_greater_than_or_equal 31) :=
  find_nearest_min_rel_error E12 31 E12_valid (by norm_num)

/-- Claim C3: for every valid series and positive value,
`find_less_than_or_equal(value) ≤ value ≤ find_greater_than_or_equal(value)`,
and both results are members of the series (a table mantissa scaled by ten
to an integer decade offset). -/
theorem find_or_equal_bracket (s : ESeries) (value : ℚ) (hs : s.valid) (hv : 0 < value) :
    s.find_less_than_or_equal value ≤ value ∧ value ≤ s.find_greater_than_or_equal value ∧
    s.isMember (s.find_less_than_or_equal value) ∧
    s.isMember (s.find_greater_than_or_equal value) :=
  ⟨ESeries.fLE_le_value s value hs hv, ESeries.value_le_fGE s value hs hv,
    ESeries.fLE_isMember s value hs, ESeries.fGE_isMember s value hs⟩

/-- Witness for C3 at E12 and value 31. -/
theorem find_or_equal_bracket_witness :
    E12.find_less_than_or_equal 31 ≤ 31 ∧ (31 : ℚ) ≤ E12.find_greater_than_or_equal 31 ∧
    E12.isMember (E12.find_less_than_or_equal 31) ∧
    E12.isMember (E12.find_greater_than_or_equal 31) :=
  find_or_equal_bracket E12 31 E12_valid (by norm_num)

/-- Claim C4: when the value is exactly a member (a table mantissa scaled by
`10^k`, decade boundaries included), both inclusive searches return it
exactly — the wraparound neither skips nor duplicates it. -/
theorem find_exact_on_members (s : ESeries) (value : ℚ) (hs : s.valid)
    (hmem : s.isMember value) :
    s.find_greater_than_or_equal value = value ∧
      s.find_less_than_or_equal value = value :=
  ESeries.find_exact_core s value hs hmem

/-- Witness for C4 at E12 and the decade-boundary value 100 = 10 * 10^1. -/
theorem find_exact_on_members_witness :
    E12.find_greater_than_or_equal 100 = 100 ∧ E12.find_less_than_or_equal 100 = 100 :=
  find_exact_on_members E12 100 E12_valid ⟨10, by decide, 1, by norm_num [pow10]⟩

/-- Claim C5: `range` yields, in strictly ascending duplicate-free order,
exactly the members `w` with `start ≤ w` and `w ≤ stop` (inclusive) resp.
`w < stop` (exclusive); a degenerate window `start > stop` yields `[]`. -/
theorem range_correct (s : ESeries) (start stop : ℚ) (include_stop : Bool)
    (hs : s.valid) (hstart : 0 < start) (hstop : 0 < stop) :
    List.Pairwise (· < ·) (s.range start stop include_stop) ∧
    (∀ w : ℚ, w ∈ s.range start stop include_stop ↔
      s.isMember w ∧ start ≤ w ∧ (if include_stop then w ≤ stop else w < stop)) ∧
    (stop < start → s.range start stop include_stop = []) := by
  refine ⟨ESeries.range_sorted s start stop include_stop hs,
    fun w => ESeries.range_mem_iff s start stop include_stop hs hstart hstop w, ?_⟩
  intro hss
  rw [List.eq_nil_iff_forall_not_mem]
  intro w hw
  obtain ⟨hmem, hsw, hcond⟩ :=
    (ESeries.range_mem_iff s start stop include_stop hs hstart hstop w).mp hw
  cases include_stop with
  | true =>
    simp only [if_true] at hcond
    linarith
  | false =>
    simp only [Bool.false_eq_true, if_false] at hcond
    linarith

/-- Witness for C5 at E12 over the window [31, 680] inclusive. -/
theorem range_correct_witness :
    List.Pairwise (· < ·) (E12.range 31 680 true) ∧
    (∀ w : ℚ, w ∈ E12.range 31 680 true ↔
      E12.isMember w ∧ 31 ≤ w ∧ (if true then w ≤ 680 else w < 680)) ∧
    ((680 : ℚ) < 31 → E12.range 31 680 true = []) :=
  range_correct E12 31 680 true E12_valid (by norm_num) (by norm_num)

/-- Claim C6: `find_less_than` and `find_greater_than` succeed and bracket
the query strictly: `find_less(value) < value < find_greater(value)`,
neither equal to the query. -/
theorem find_strict_bounds (s : ESeries) (value : ℚ) (hs : s.valid) (hv : 0 < value) :
    (∃ g, s.find_greater_than value = some g ∧ value < g) ∧
    (∃ l, s.find_less_than value = some l ∧ l < value) :=
  ⟨ESeries.find_greater_than_spec s value hs hv, ESeries.find_less_than_spec s value hs hv⟩

/-- Witness for C6 at E12 and value 31. -/
theorem find_strict_bounds_witness :
    (∃ g, E12.find_greater_than 31 = some g ∧ (31 : ℚ) < g) ∧
    (∃ l, E12.find_less_than 31 = some l ∧ l < (31 : ℚ)) :=
  find_strict_bounds E12 31 E12_valid (by norm_num)

/-- Claim C7: `find_nearest_few` with count 3 returns three values with one
strictly below and one strictly above the query; when the query is an exact
member, the middle element is the query itself. -/
theorem find_nearest_few_count_three (s : ESeries) (value : ℚ) (hs : s.valid)
    (hv : 0 < value) :
    ∃ lower nearest bigger,
      find_nearest_few s value 3 = Except.ok [lower, nearest, bigger] ∧
      lower < value ∧ value < bigger ∧ (s.isMember value → nearest = value) := by
  refine ⟨s.iterate_down value 1, s.iterate_down value 0, _,
    find_nearest_few_three_eq s value, ?_, ?_, ?_⟩
  · have h10 : s.iterate_down value 1 < s.iterate_down value 0 :=
      ESeries.iterate_down_strict s value hs (by omega)
    have h0 : s.iterate_down value 0 ≤ value := ESeries.fLE_le_value s value hs hv
    linarith
  · by_cases hbe : s.iterate_up value 0 = s.iterate_down value 0
    · rw [if_pos hbe]
      have h01 : s.iterate_up value 0 < s.iterate_up value 1 :=
        ESeries.iterate_up_strict s value hs (by omega)
      have hge : value ≤ s.iterate_up value 0 := ESeries.value_le_fGE s value hs hv
      linarith
    · rw [if_neg hbe]
      have hge : value ≤ s.iterate_up value 0 := ESeries.value_le_fGE s value hs hv
      rcases lt_or_eq_of_le hge with h | h
      · exact h
      · exfalso
        have hmem : s.isMember value := by
          rw [h]
          exact ESeries.fGE_isMember s value hs
        obtain ⟨hg, hl⟩ := ESeries.find_exact_core s value hs hmem
        apply hbe
        calc s.iterate_up value 0 = s.find_greater_than_or_equal value := rfl
          _ = value := hg
          _ = s.find_less_than_or_equal value := hl.symm
          _ = s.iterate_down value 0 := rfl
  · intro hmem
    exact (ESeries.find_exact_core s value hs hmem).2

/-- Witness for C7 at E12 and the exact member 100. -/
theorem find_nearest_few_count_three_witness :
    ∃ lower nearest bigger,
      find_nearest_few E12 100 3 = Except.ok [lower, nearest, bigger] ∧
      lower < (100 : ℚ) ∧ (100 : ℚ) < bigger ∧ (E12.isMember 100 → nearest = 100) :=
  find_nearest_few_count_three E12 100 E12_valid (by norm_num)

/-- Claim C8: `find_nearest` is idempotent. -/
theorem find_nearest_idempotent (s : ESeries) (value : ℚ) (hs : s.valid) (hv : 0 < value) :
    s.find_nearest (s.find_nearest value) = s.find_nearest value :=
  ESeries.find_nearest_self s (s.find_nearest value) hs
    (ESeries.find_nearest_isMember s value hs)

/-- Witness for C8 at E12 and value 31. -/
theorem find_nearest_idempotent_witness :
    E12.find_nearest (E12.find_nearest 31) = E12.find_nearest 31 :=
  find_nearest_idempotent E12 31 E12_valid (by norm_num)

/-- Claim C9: `find_nearest_few` succeeds exactly when the count is 1, 2 or
3; for any other count it is the invalid-count error no matter the series
or the value, i.e. the check precedes any search. -/
theorem find_nearest_few_count_validation (s : ESeries) (value : ℚ) (num : ℤ) :
    ((∃ r, find_nearest_few s value num = Except.ok r) ↔
      (num = 1 ∨ num = 2 ∨ num = 3)) ∧
    (¬(num = 1 ∨ num = 2 ∨ num = 3) →
      find_nearest_few s value num = Except.error "num is not 1, 2 or 3") := by
  constructor
  · constructor
    · rintro ⟨r, hr⟩
      by_contra hcon
      unfold find_nearest_few at hr
      rw [if_neg hcon] at hr
      exact Except.noConfusion hr
    · intro h
      unfold find_nearest_few
      rw [if_pos h]
      by_cases h1 : num = 1
      · rw [if_pos h1]; exact ⟨_, rfl⟩
      · rw [if_neg h1]
        by_cases h2 : num = 2
        · rw [if_pos h2]; exact ⟨_, rfl⟩
        · rw [if_neg h2]; exact ⟨_, rfl⟩
  · intro h
    unfold find_nearest_few
    rw [if_neg h]

/-- Witness for C9: count 5 is rejected with the invalid-count error. -/
theorem find_nearest_few_count_validation_witness :
    find_nearest_few E12 31 5 = Except.error "num is not 1, 2 or 3" :=
  (find_nearest_few_count_validation E12 31 5).2 (by decide)

/-- Claim C10: `__getitem__` with a number is `find_nearest`; with a
step-free slice it is `range` with `include_stop = False`, so a member equal
to the slice stop is excluded there even though `erange` with the same
bounds succeeds and includes it. -/
theorem getitem_spec (s : ESeries) (a b : ℚ) (hs : s.valid)
    (ha : MINIMUM_E_VALUE ≤ a) (hab : a ≤ b) (hb : s.isMember b) :
    (∀ x : ℚ, s.getitem (Key.num x) = Sum.inl (s.find_nearest x)) ∧
    s.getitem (Key.slice a b) = Sum.inr (s.range a b false) ∧
    b ∉ s.range a b false ∧
    (∃ l, erange s a b = Except.ok l ∧ b ∈ l) := by
  have hmin : (0 : ℚ) < MINIMUM_E_VALUE := by unfold MINIMUM_E_VALUE; positivity
  have ha0 : 0 < a := lt_of_lt_of_le hmin ha
  have hb0 : 0 < b := lt_of_lt_of_le ha0 hab
  refine ⟨fun x => rfl, rfl, ?_, ?_⟩
  · intro hmemrange
    obtain ⟨hmem2, hab2, hcond⟩ :=
      (ESeries.range_mem_iff s a b false hs ha0 hb0 b).mp hmemrange
    simp only [Bool.false_eq_true, if_false] at hcond
    exact lt_irrefl b hcond
  · refine ⟨s.range a b true, ?_, ?_⟩
    · unfold erange
      rw [if_neg (not_lt.mpr ha), if_neg (not_lt.mpr (le_trans ha hab)),
        if_neg (not_not_intro hab)]
    · exact (ESeries.range_mem_iff s a b true hs ha0 hb0 b).mpr ⟨hb, hab, by simp⟩

/-- Witness for C10 at E12 with the window [31, 33], where 33 is a member. -/
theorem getitem_spec_witness :
    (∀ x : ℚ, E12.getitem (Key.num x) = Sum.inl (E12.find_nearest x)) ∧
    E12.getitem (Key.slice 31 33) = Sum.inr (E12.range 31 33 false) ∧
    (33 : ℚ) ∉ E12.range 31 33 false ∧
    (∃ l, erange E12 31 33 = Except.ok l ∧ (33 : ℚ) ∈ l) :=
  getitem_spec E12 31 33 E12_valid (by norm_num [MINIMUM_E_VALUE]) (by norm_num)
    ⟨33, by decide, 0, by norm_num [pow10]⟩
